import Mathlib

/-!
# Verification of the FileForge file-generation engine

Shallow embedding of `FileForge.go` (package main).  Go strings are modelled
as `List Char`; Go `int` (64-bit, build targets GOARCH=amd64) is modelled as
`Int`, with the silent 64-bit wraparound of multiplication made explicit via
`wrap64`, and with division-by-zero (a Go runtime panic) modelled as `none`.
Fallible I/O is modelled by an oracle (`FSOracle`) that decides which of the
operations performed by `createRandomFile` fail, mirroring the sequence of
error checks in the source.  Loops whose termination depends on run-time
values (`for remaining > 0`) take a fuel parameter; fuel exhaustion (`none`)
models non-termination.
-/

set_option linter.unusedVariables false

namespace FileForge

/-! ## Character classes used by the Go string helpers -/

/-- The cutset of `strings.Trim(sizeStr, "'\"")` in `parseSize`. -/
def isQuoteChar (c : Char) : Bool := c = '\'' || c = '"'

/-- ASCII whitespace trimmed by `strings.TrimSpace` (the inputs of interest
are ASCII; Go additionally trims some non-ASCII Unicode space characters). -/
def isGoSpace (c : Char) : Bool :=
  c = ' ' || c = '\t' || c = '\n' || c = '\x0b' || c = '\x0c' || c = '\r'

def isAsciiUpper (c : Char) : Bool := 'A' ≤ c && c ≤ 'Z'

def isDigitCh (c : Char) : Bool := '0' ≤ c && c ≤ '9'

/-! ## Decimal rendering (`fmt.Sprintf("%d", i)`) -/

/-- The decimal digit character for `n % 10`. -/
def decDigit (n : Nat) : Char :=
  match n with
  | 0 => '0' | 1 => '1' | 2 => '2' | 3 => '3' | 4 => '4'
  | 5 => '5' | 6 => '6' | 7 => '7' | 8 => '8' | _ => '9'

/-- Decimal digits of a natural number, most significant first. -/
def natDigits (n : Nat) : List Char :=
  if h : n < 10 then [decDigit n]
  else natDigits (n / 10) ++ [decDigit (n % 10)]
decreasing_by exact Nat.div_lt_self (by omega) (by omega)

/-- Go's `%d` formatting of an `int`. -/
def intToDecimal (i : Int) : List Char :=
  if i < 0 then '-' :: natDigits (-i).toNat else natDigits i.toNat

/-! ## Go string functions used by `parseSize` -/

/-- Drop characters satisfying `p` from both ends
(`strings.Trim` / `strings.TrimSpace` shape). -/
def goTrimEnds (p : Char → Bool) (s : List Char) : List Char :=
  ((s.dropWhile p).reverse.dropWhile p).reverse

def goTrimSpace : List Char → List Char := goTrimEnds isGoSpace

def goTrimQuotes : List Char → List Char := goTrimEnds isQuoteChar

/-- ASCII upper-casing of one character (`strings.ToUpper` on ASCII input). -/
def upChar (c : Char) : Char :=
  if 'a' ≤ c && c ≤ 'z' then Char.ofNat (c.toNat - 32) else c

def goToUpper (s : List Char) : List Char := s.map upChar

/-- `strings.TrimSuffix`. -/
def goTrimSuffix (s sfx : List Char) : List Char :=
  if sfx.isSuffixOf s then s.take (s.length - sfx.length) else s

/-! ## `strconv.Atoi` (base 10, 64-bit range check) -/

inductive AtoiErr where
  /-- Go's `strconv.ErrSyntax`: the string is not a well-formed integer. -/
  | invalidNum
  /-- Go's `strconv.ErrRange`: the value does not fit in `int64`. -/
  | outOfRange
deriving DecidableEq

def digitVal (c : Char) : Option Nat :=
  if isDigitCh c then some (c.toNat - 48) else none

/-- Accumulating base-10 digit parse (left to right). -/
def parseDigitsAcc (acc : Nat) : List Char → Option Nat
  | [] => some acc
  | c :: rest =>
    match digitVal c with
    | none => none
    | some d => parseDigitsAcc (acc * 10 + d) rest

/-- Magnitude-and-sign part of `strconv.Atoi`. -/
def goAtoiMag (neg : Bool) (digits : List Char) : Except AtoiErr Int :=
  match digits with
  | [] => .error .invalidNum
  | _ :: _ =>
    match parseDigitsAcc 0 digits with
    | none => .error .invalidNum
    | some v =>
      let value : Int := if neg then -(v : Int) else (v : Int)
      if value < -(2 ^ 63) ∨ 2 ^ 63 ≤ value then .error .outOfRange else .ok value

/-- `strconv.Atoi`: optional sign, then a non-empty run of decimal digits,
with the `int64` range check. -/
def goAtoi (s : List Char) : Except AtoiErr Int :=
  match s with
  | [] => .error .invalidNum
  | c :: rest =>
    if c = '-' then goAtoiMag true rest
    else if c = '+' then goAtoiMag false rest
    else goAtoiMag false s

/-! ## 64-bit wraparound arithmetic -/

/-- Reduce an integer to the value of its `int64` representation. -/
def wrap64 (x : Int) : Int := (x + 2 ^ 63) % 2 ^ 64 - 2 ^ 63

/-- Go multiplication of two in-range `int` values (silently wraps). -/
def goMul (a b : Int) : Int := wrap64 (a * b)

/-! ## `parseSize` (FileForge.go lines 56-100) -/

def uGB : List Char := ['G', 'B']
def uMB : List Char := ['M', 'B']
def uKB : List Char := ['K', 'B']
def uB : List Char := ['B']
def uGIGABYTE : List Char := ['G', 'I', 'G', 'A', 'B', 'Y', 'T', 'E']
def uMEGABYTE : List Char := ['M', 'E', 'G', 'A', 'B', 'Y', 'T', 'E']
def uKILOBYTE : List Char := ['K', 'I', 'L', 'O', 'B', 'Y', 'T', 'E']
def uBYTE : List Char := ['B', 'Y', 'T', 'E']
def uGIGABYTES : List Char := ['G', 'I', 'G', 'A', 'B', 'Y', 'T', 'E', 'S']
def uMEGABYTES : List Char := ['M', 'E', 'G', 'A', 'B', 'Y', 'T', 'E', 'S']
def uKILOBYTES : List Char := ['K', 'I', 'L', 'O', 'B', 'Y', 'T', 'E', 'S']
def uBYTES : List Char := ['B', 'Y', 'T', 'E', 'S']

/-- The unit list of `parseSize`, in source order. -/
def units : List (List Char) :=
  [uGB, uMB, uKB, uB,
   uGIGABYTE, uMEGABYTE, uKILOBYTE, uBYTE,
   uGIGABYTES, uMEGABYTES, uKILOBYTES, uBYTES]

instance {ε α : Type} [DecidableEq ε] [DecidableEq α] : DecidableEq (Except ε α) := fun a b =>
  match a, b with
  | .error e, .error e' => if h : e = e' then .isTrue (by rw [h]) else .isFalse (by simp [h])
  | .ok v, .ok v' => if h : v = v' then .isTrue (by rw [h]) else .isFalse (by simp [h])
  | .error _, .ok _ => .isFalse (by simp)
  | .ok _, .error _ => .isFalse (by simp)

inductive SizeErr where
  /-- "invalid size format. Expected format: '1GB' or '1 GB'" -/
  | invalidFormat
  /-- the error returned by `strconv.Atoi` is forwarded -/
  | invalidNumber (e : AtoiErr)
  /-- "unsupported size unit" (the switch's default branch) -/
  | unsupportedUnit (u : List Char)
deriving DecidableEq

/-- The normalization prefix of `parseSize`: trim quotes, then
`ToUpper(TrimSpace(...))`. -/
def normalizeSize (s : List Char) : List Char :=
  goToUpper (goTrimSpace (goTrimQuotes s))

/-- The `switch unit` statement of `parseSize`: multiply the parsed number
by the unit's byte multiplier using Go's wrapping `int` multiplication. -/
def unitFactor (u : List Char) (n : Int) : Except SizeErr Int :=
  if u = uB ∨ u = uBYTE ∨ u = uBYTES then .ok n
  else if u = uKB ∨ u = uKILOBYTE ∨ u = uKILOBYTES then .ok (goMul n 1024)
  else if u = uMB ∨ u = uMEGABYTE ∨ u = uMEGABYTES then .ok (goMul (goMul n 1024) 1024)
  else if u = uGB ∨ u = uGIGABYTE ∨ u = uGIGABYTES then
    .ok (goMul (goMul (goMul n 1024) 1024) 1024)
  else .error (.unsupportedUnit u)

/-- `parseSize`: normalize, find the first unit in `units` that is a suffix,
parse the remaining value with `Atoi`, multiply. -/
def parseSize (sizeStr0 : List Char) : Except SizeErr Int :=
  let sizeStr := normalizeSize sizeStr0
  match units.find? (fun u => u.isSuffixOf sizeStr) with
  | none => .error .invalidFormat
  | some u =>
    match goAtoi (goTrimSpace (goTrimSuffix sizeStr u)) with
    | .error e => .error (.invalidNumber e)
    | .ok numValue => unitFactor u numValue

/-- Modelled from the spec (§4.1, claim C4): the same unit set checked in
longest-suffix-first order ("must check longer suffixes, e.g. GIGABYTES,
before shorter ones like B").  Used only to compare with the source-order
matching of `parseSize`. -/
def unitsLongestFirst : List (List Char) :=
  [uGIGABYTES, uMEGABYTES, uKILOBYTES,
   uGIGABYTE, uMEGABYTE, uKILOBYTE,
   uBYTES, uBYTE,
   uGB, uMB, uKB, uB]

/-- The unit byte multipliers as the spec states them (1, 1024, 1024², 1024³),
without any wraparound.  Used to state claim C2. -/
def specMultiplier (u : List Char) : Int :=
  if u = uB ∨ u = uBYTE ∨ u = uBYTES then 1
  else if u = uKB ∨ u = uKILOBYTE ∨ u = uKILOBYTES then 1024
  else if u = uMB ∨ u = uMEGABYTE ∨ u = uMEGABYTES then 1024 * 1024
  else if u = uGB ∨ u = uGIGABYTE ∨ u = uGIGABYTES then 1024 * 1024 * 1024
  else 0

/-! ## Buffer sizing (FileForge.go lines 21-26 and 38-53) -/

def minBufferSize : Int := 256 * 1024

def maxBufferSize : Int := 16 * 1024 * 1024

def defaultFilesPerDir : Int := 10000

/-- `getOptimalBufferSize`, parametrized by `syscall.Getpagesize()`. -/
def getOptimalBufferSize (pageSize : Int) : Int :=
  let bufferSize := max (pageSize * 256) (1024 * 1024)
  if bufferSize < minBufferSize then minBufferSize
  else if bufferSize > maxBufferSize then maxBufferSize
  else bufferSize

/-- The spec's clamp: `clamp(x, lo, hi) = min (max x lo) hi`.
Used to state claim C6. -/
def clampSpec (lo hi x : Int) : Int := min (max x lo) hi

/-! ## Path planning (FileForge.go lines 205-213) -/

/-- Go integer division: truncates toward zero, panics on a zero divisor
(the panic is modelled as `none`). -/
def goDivInt (a b : Int) : Option Int :=
  if b = 0 then none else some (Int.tdiv a b)

def fileSeg : List Char := ['/', 'f', 'i', 'l', 'e', '_']

def binSuffix : List Char := ['.', 'b', 'i', 'n']

def subdirSeg : List Char := ['/', 's', 'u', 'b', 'd', 'i', 'r', '_']

/-- The per-index path computation inside the producer goroutine:
`fmt.Sprintf("%s/file_%d.bin", directory, i)` in the `noSubdirs` case,
otherwise `subdirNum := i / filesPerDir` followed by the two Sprintf calls. -/
def filePathFor (directory : List Char) (filesPerDir : Int) (noSubdirs : Bool)
    (i : Int) : Option (List Char) :=
  if noSubdirs then
    some (directory ++ fileSeg ++ intToDecimal i ++ binSuffix)
  else
    match goDivInt i filesPerDir with
    | none => none
    | some subdirNum =>
      some ((directory ++ subdirSeg ++ intToDecimal subdirNum) ++
        fileSeg ++ intToDecimal i ++ binSuffix)

/-- The value produced by `filePathFor` when the division cannot panic. -/
def filePathTotal (directory : List Char) (filesPerDir : Int) (noSubdirs : Bool)
    (i : Int) : List Char :=
  if noSubdirs then directory ++ fileSeg ++ intToDecimal i ++ binSuffix
  else (directory ++ subdirSeg ++ intToDecimal (Int.tdiv i filesPerDir)) ++
    fileSeg ++ intToDecimal i ++ binSuffix

/-- The producer loop `for i := startNum; i <= endNum; i++`, unrolled on the
number of remaining iterations. -/
def producePathsAux (d : List Char) (fpd : Int) (ns : Bool) :
    Int → Nat → Option (List (List Char))
  | _, 0 => some []
  | i, n + 1 =>
    match filePathFor d fpd ns i with
    | none => none
    | some p =>
      match producePathsAux d fpd ns (i + 1) n with
      | none => none
      | some rest => some (p :: rest)

/-- The list of paths pushed into the `jobs` channel by the producer
goroutine of `createRandomDataFiles`, in production order; the channel is
closed after the last one (modelled by the list being finite). -/
def producePaths (d : List Char) (startNum endNum fpd : Int) (ns : Bool) :
    Option (List (List Char)) :=
  producePathsAux d fpd ns startNum (endNum + 1 - startNum).toNat

/-- The indices enumerated by the producer loop, in order. -/
def indexList (startNum endNum : Int) : List Int :=
  (List.range (endNum + 1 - startNum).toNat).map (fun k : Nat => startNum + (k : Int))

/-- Extracts (reversed) the decimal index written just before the trailing
".bin" of a generated path; used only to prove path injectivity. -/
def tailIndexRev (l : List Char) : List Char :=
  (l.reverse.drop 4).takeWhile (fun c => !(c = '_'))

/-! ## `createRandomFile` (FileForge.go lines 103-146) -/

inductive FileErr where
  /-- "error creating directory for file %s: %v" -/
  | dirCreate (path : List Char)
  /-- "error creating file %s: %v" -/
  | fileCreate (path : List Char)
  /-- "error generating random data: %v" (note: no path in the format) -/
  | randSource
  /-- "error writing to file %s: %v" -/
  | writeFail (path : List Char)
  /-- "error flushing buffer to file %s: %v" -/
  | flushFail (path : List Char)
deriving DecidableEq

/-- The file path embedded in the error's message by its `fmt.Errorf` format
string; `randSource`'s format contains no `%s` path verb. -/
def errPath : FileErr → Option (List Char)
  | .dirCreate p => some p
  | .fileCreate p => some p
  | .randSource => none
  | .writeFail p => some p
  | .flushFail p => some p

/-- Decides which of the operations performed by `createRandomFile` fail:
`os.MkdirAll`, `os.Create`, the per-chunk `rand.Read` and `bufWriter.Write`
(indexed by chunk number), and the final `bufWriter.Flush`. -/
structure FSOracle where
  mkdirFails : Bool
  createFails : Bool
  randFails : Nat → Bool
  writeFails : Nat → Bool
  flushFails : Bool

/-- The oracle under which every I/O operation succeeds. -/
def okOracle : FSOracle :=
  ⟨false, false, fun _ => false, fun _ => false, false⟩

/-- The chunk loop of `createRandomFile`: while `remaining > 0`, take a chunk
of `bufferSize` (or `remaining` when smaller), fill it from the random source
and write it, decreasing `remaining`.  Returns the chunk sizes written, the
first error hit, or `none` when the fuel runs out (the Go loop does not
terminate when `bufferSize ≤ 0 < remaining`). -/
def writeChunks (env : FSOracle) (path : List Char) (bufferSize : Int) :
    Nat → Int → Nat → Option (Except FileErr (List Int))
  | 0, remaining, _ => if 0 < remaining then none else some (.ok [])
  | fuel + 1, remaining, k =>
    if 0 < remaining then
      let chunkSize := if remaining < bufferSize then remaining else bufferSize
      if env.randFails k then some (.error .randSource)
      else if env.writeFails k then some (.error (.writeFail path))
      else
        match writeChunks env path bufferSize fuel (remaining - chunkSize) (k + 1) with
        | none => none
        | some (.error e) => some (.error e)
        | some (.ok rest) => some (.ok (chunkSize :: rest))
    else some (.ok [])

/-- `createRandomFile`: MkdirAll, Create, the chunk loop, Flush.  On success
returns the list of chunk sizes written (in order). -/
def createRandomFile (env : FSOracle) (path : List Char)
    (fileSize bufferSize : Int) (fuel : Nat) : Option (Except FileErr (List Int)) :=
  if env.mkdirFails then some (.error (.dirCreate path))
  else if env.createFails then some (.error (.fileCreate path))
  else
    match writeChunks env path bufferSize fuel fileSize 0 with
    | none => none
    | some (.error e) => some (.error e)
    | some (.ok chunks) =>
      if env.flushFails then some (.error (.flushFail path)) else some (.ok chunks)

/-! ## The worker loop and the progress monitor (FileForge.go 149-161, 175-194) -/

/-- One `fmt.Printf("Worker %d: %v\n", id, err)` line. -/
structure LogEntry where
  workerId : Int
  err : FileErr
deriving DecidableEq

/-- The worker loop: for each job pulled from the channel, run
`createRandomFile`; on error, log it (worker id and error) and continue; in
every case send `int64(fileSize)` and the elapsed time on the progress
channel (modelled as one pair per job).  Returns `none` when some
`createRandomFile` call diverges. -/
def worker (id : Int) (envOf : List Char → FSOracle) (fileSize bufferSize : Int)
    (elapsedOf : List Char → Int) (fuel : Nat) :
    List (List Char) → Option (List LogEntry × List (Int × Int))
  | [] => some ([], [])
  | path :: rest =>
    match createRandomFile (envOf path) path fileSize bufferSize fuel with
    | none => none
    | some res =>
      match worker id envOf fileSize bufferSize elapsedOf fuel rest with
      | none => none
      | some (logs, events) =>
        match res with
        | .error e => some (⟨id, e⟩ :: logs, (fileSize, elapsedOf path) :: events)
        | .ok _ => some (logs, (fileSize, elapsedOf path) :: events)

/-- The progress monitor's accumulator state. -/
structure RunStats where
  completed : Int
  totalBytes : Int
  totalTime : Int
deriving DecidableEq

/-- The progress-monitor loop: for each (size, time) pair received, add the
size to `totalBytes`, the time to `totalTime`, and count one completion. -/
def aggregate (events : List (Int × Int)) : RunStats :=
  events.foldl (fun s ev => ⟨s.completed + 1, s.totalBytes + ev.1, s.totalTime + ev.2⟩)
    ⟨0, 0, 0⟩

/-! ## `main`'s validation pipeline (FileForge.go 257-291) -/

/-- The required-flag check of `main`
(`*directoryPtr == "" || *startNumPtr == 0 || *endNumPtr == 0 || *sizePtr == ""`).
The flag defaults are `""` and `0`, so an omitted flag arrives here as
exactly these values. -/
def requiredMissing (directory : List Char) (startNum endNum : Int)
    (sizeStr : List Char) : Bool :=
  directory == [] || startNum == 0 || endNum == 0 || sizeStr == []

inductive MainOutcome where
  /-- `flag.Usage(); os.Exit(1)` -/
  | usageExit
  /-- "Error parsing file size"; `os.Exit(1)` -/
  | sizeError
  /-- `createRandomDataFiles` is reached with these arguments -/
  | run (directory : List Char) (startNum endNum fileSize filesPerDir numWorkers : Int)
      (noSubdirs : Bool)
deriving DecidableEq

/-- `main` up to the call of `createRandomDataFiles`: required-flag check,
then `parseSize`, then the `fileSize <= 0` check. -/
def mainModel (directory : List Char) (startNum endNum : Int) (sizeStr : List Char)
    (filesPerDir numWorkers : Int) (noSubdirs : Bool) : MainOutcome :=
  if requiredMissing directory startNum endNum sizeStr then .usageExit
  else
    match parseSize sizeStr with
    | .error _ => .sizeError
    | .ok fileSize =>
      if fileSize ≤ 0 then .sizeError
      else .run directory startNum endNum fileSize filesPerDir numWorkers noSubdirs

/-- An oracle whose random source always fails. -/
def failRandOracle : FSOracle := { okOracle with randFails := fun _ => true }

/-- An oracle whose writes always fail. -/
def failWriteOracle : FSOracle := { okOracle with writeFails := fun _ => true }

/-! ## Helper lemmas -/

theorem tdiv_coe (m n : Nat) : Int.tdiv (m : Int) (n : Int) = ((m / n : Nat) : Int) := rfl

theorem tdiv_10000_zero (i : Int) (h1 : 1 ≤ i) (h2 : i ≤ 9999) : Int.tdiv i 10000 = 0 := by
  have h0 : i = ((i.toNat : Nat) : Int) := (Int.toNat_of_nonneg (by omega)).symm
  rw [h0, show ((10000 : Int)) = ((10000 : Nat) : Int) from rfl, tdiv_coe]
  have : i.toNat / 10000 = 0 := Nat.div_eq_of_lt (by omega)
  rw [this]; rfl

theorem tdiv_10000_one (i : Int) (h1 : 10000 ≤ i) (h2 : i ≤ 19999) : Int.tdiv i 10000 = 1 := by
  have h0 : i = ((i.toNat : Nat) : Int) := (Int.toNat_of_nonneg (by omega)).symm
  rw [h0, show ((10000 : Int)) = ((10000 : Nat) : Int) from rfl, tdiv_coe]
  have : i.toNat / 10000 = 1 := Nat.div_eq_of_lt_le (by omega) (by omega)
  rw [this]; rfl

theorem tdiv_10000_two (i : Int) (h1 : 20000 ≤ i) (h2 : i ≤ 25000) : Int.tdiv i 10000 = 2 := by
  have h0 : i = ((i.toNat : Nat) : Int) := (Int.toNat_of_nonneg (by omega)).symm
  rw [h0, show ((10000 : Int)) = ((10000 : Nat) : Int) from rfl, tdiv_coe]
  have : i.toNat / 10000 = 2 := Nat.div_eq_of_lt_le (by omega) (by omega)
  rw [this]; rfl

theorem writeChunks_ok_sum (env : FSOracle) (path : List Char) (b : Int) (hb : 0 < b) :
    ∀ (fuel : Nat) (remaining : Int) (k : Nat) (l : List Int),
      writeChunks env path b fuel remaining k = some (.ok l) →
      l.sum = max remaining 0 ∧ ∀ c ∈ l, 0 < c ∧ c ≤ b := by
  intro fuel
  induction fuel with
  | zero =>
    intro remaining k l h
    by_cases hr : 0 < remaining
    · simp [writeChunks, hr] at h
    · simp [writeChunks, hr] at h
      subst h
      simp
      omega
  | succ n ih =>
    intro remaining k l h
    by_cases hr : 0 < remaining
    · rw [writeChunks, if_pos hr] at h
      by_cases hrand : env.randFails k
      · simp [hrand] at h
      · by_cases hwrite : env.writeFails k
        · simp [hrand, hwrite] at h
        · simp only [hrand, hwrite, if_false, Bool.false_eq_true] at h
          set chunk : Int := if remaining < b then remaining else b with hchunk
          cases hrec : writeChunks env path b n (remaining - chunk) (k + 1) with
          | none => rw [hrec] at h; simp at h
          | some res =>
            rw [hrec] at h
            cases res with
            | error e => simp at h
            | ok rest =>
              simp at h
              obtain ⟨hs, hbound⟩ := ih (remaining - chunk) (k + 1) rest hrec
              have hcpos : 0 < chunk ∧ chunk ≤ b := by
                rw [hchunk]; split_ifs <;> omega
              subst h
              constructor
              · simp [hs]; omega
              · intro c hc
                rcases List.mem_cons.1 hc with hc | hc
                · subst hc; exact hcpos
                · exact hbound c hc
    · rw [writeChunks, if_neg hr] at h
      simp at h
      subst h
      simp
      omega

theorem writeChunks_error_cases (env : FSOracle) (path : List Char) (b : Int) :
    ∀ (fuel : Nat) (r : Int) (k : Nat) (e : FileErr),
      writeChunks env path b fuel r k = some (.error e) →
      e = .randSource ∨ e = .writeFail path := by
  intro fuel
  induction fuel with
  | zero =>
    intro r k e h
    by_cases hr : 0 < r <;> simp [writeChunks, hr] at h
  | succ n ih =>
    intro r k e h
    by_cases hr : 0 < r
    · rw [writeChunks, if_pos hr] at h
      by_cases hrand : env.randFails k
      · simp [hrand] at h
        subst h; left; rfl
      · by_cases hwrite : env.writeFails k
        · simp [hrand, hwrite] at h
          subst h; right; rfl
        · simp only [hrand, hwrite, if_false, Bool.false_eq_true] at h
          set chunk : Int := if r < b then r else b with hchunk
          cases hrec : writeChunks env path b n (r - chunk) (k + 1) with
          | none => rw [hrec] at h; simp at h
          | some res =>
            rw [hrec] at h
            cases res with
            | error e' =>
              simp at h
              subst h
              exact ih (r - chunk) (k + 1) _ hrec
            | ok rest => simp at h
    · rw [writeChunks, if_neg hr] at h
      simp at h

theorem createRandomFile_error_cases (env : FSOracle) (path : List Char)
    (fs b : Int) (fuel : Nat) (e : FileErr)
    (h : createRandomFile env path fs b fuel = some (.error e)) :
    e = .randSource ∨ errPath e = some path := by
  unfold createRandomFile at h
  by_cases h1 : env.mkdirFails
  · simp [h1] at h
    subst h; right; rfl
  by_cases h2 : env.createFails
  · simp [h1, h2] at h
    subst h; right; rfl
  simp only [h1, h2, if_false, Bool.false_eq_true] at h
  cases hw : writeChunks env path b fuel fs 0 with
  | none => rw [hw] at h; simp at h
  | some res =>
    rw [hw] at h
    cases res with
    | error e' =>
      simp at h
      subst h
      rcases writeChunks_error_cases env path b fuel fs 0 _ hw with h | h
      · left; exact h
      · right; rw [h]; rfl
    | ok cs =>
      by_cases h3 : env.flushFails
      · simp [h3] at h
        subst h; right; rfl
      · simp [h3] at h

theorem worker_unfold (id : Int) (envOf : List Char → FSOracle) (fs b : Int)
    (el : List Char → Int) (fuel : Nat) (p : List Char) (rest : List (List Char)) :
    worker id envOf fs b el fuel (p :: rest) =
      match createRandomFile (envOf p) p fs b fuel with
      | none => none
      | some res =>
        match worker id envOf fs b el fuel rest with
        | none => none
        | some (logs, events) =>
          match res with
          | .error e => some (⟨id, e⟩ :: logs, (fs, el p) :: events)
          | .ok _ => some (logs, (fs, el p) :: events) := rfl

theorem worker_shape (id : Int) (envOf : List Char → FSOracle) (fs b : Int)
    (el : List Char → Int) (fuel : Nat) :
    ∀ (jobs : List (List Char)) (logs : List LogEntry) (events : List (Int × Int)),
      worker id envOf fs b el fuel jobs = some (logs, events) →
      events = jobs.map (fun p => (fs, el p)) ∧
      logs = jobs.filterMap (fun p =>
        match createRandomFile (envOf p) p fs b fuel with
        | some (.error e) => some ⟨id, e⟩
        | _ => none) := by
  intro jobs
  induction jobs with
  | nil =>
    intro logs events h
    simp [worker] at h
    obtain ⟨h1, h2⟩ := h
    subst h1; subst h2; simp
  | cons p rest ih =>
    intro logs events h
    rw [worker_unfold] at h
    cases hc : createRandomFile (envOf p) p fs b fuel with
    | none => rw [hc] at h; simp at h
    | some res =>
      rw [hc] at h
      cases hw : worker id envOf fs b el fuel rest with
      | none => rw [hw] at h; simp at h
      | some pr =>
        obtain ⟨logs', events'⟩ := pr
        rw [hw] at h
        obtain ⟨he, hl⟩ := ih logs' events' hw
        cases res with
        | error e =>
          simp at h
          obtain ⟨h1, h2⟩ := h
          subst h1; subst h2
          simp [hc, he, hl]
        | ok v =>
          simp at h
          obtain ⟨h1, h2⟩ := h
          subst h1; subst h2
          simp [hc, he, hl]

theorem aggregate_foldl (events : List (Int × Int)) :
    ∀ s : RunStats,
      events.foldl (fun s ev => ⟨s.completed + 1, s.totalBytes + ev.1, s.totalTime + ev.2⟩) s =
        ⟨s.completed + events.length, s.totalBytes + (events.map Prod.fst).sum,
         s.totalTime + (events.map Prod.snd).sum⟩ := by
  induction events with
  | nil => intro s; simp
  | cons ev rest ih =>
    intro s
    simp only [List.foldl_cons, List.map_cons, List.sum_cons, List.length_cons]
    rw [ih]
    congr 1 <;> push_cast <;> ring

theorem aggregate_spec (events : List (Int × Int)) :
    aggregate events =
      ⟨events.length, (events.map Prod.fst).sum, (events.map Prod.snd).sum⟩ := by
  unfold aggregate
  rw [aggregate_foldl]
  congr 1 <;> simp

theorem sum_map_const {α : Type} (l : List α) (c : Int) :
    (l.map (fun _ => c)).sum = l.length * c := by
  induction l with
  | nil => simp
  | cons a rest ih =>
    simp [ih]
    ring

theorem decDigit_digit (n : Nat) : isDigitCh (decDigit n) = true := by
  unfold decDigit
  split <;> rfl

theorem decDigit_inj : ∀ a < 10, ∀ b < 10, decDigit a = decDigit b → a = b := by decide

theorem natDigits_ne_nil (n : Nat) : natDigits n ≠ [] := by
  rw [natDigits]
  split
  · simp
  · simp

theorem natDigits_all_digit (n : Nat) : ∀ c ∈ natDigits n, isDigitCh c = true := by
  induction n using Nat.strong_induction_on with
  | _ n ih =>
    rw [natDigits]
    split
    · intro c hc
      simp at hc
      subst hc
      exact decDigit_digit n
    · intro c hc
      rcases List.mem_append.1 hc with hc | hc
      · exact ih (n / 10) (Nat.div_lt_self (by omega) (by omega)) c hc
      · simp at hc
        subst hc
        exact decDigit_digit _

theorem natDigits_lt10 (n : Nat) (h : n < 10) : natDigits n = [decDigit n] := by
  rw [natDigits]
  rw [dif_pos h]

theorem natDigits_ge10 (n : Nat) (h : ¬n < 10) :
    natDigits n = natDigits (n / 10) ++ [decDigit (n % 10)] := by
  conv_lhs => rw [natDigits]
  rw [dif_neg h]

theorem natDigits_inj : ∀ a b : Nat, natDigits a = natDigits b → a = b := by
  intro a
  induction a using Nat.strong_induction_on with
  | _ a ih =>
    intro b h
    by_cases ha : a < 10 <;> by_cases hb : b < 10
    · rw [natDigits_lt10 a ha, natDigits_lt10 b hb] at h
      simp at h
      exact decDigit_inj a ha b hb h
    · rw [natDigits_lt10 a ha, natDigits_ge10 b hb] at h
      have hlen := congrArg List.length h
      simp at hlen
      exact absurd hlen (natDigits_ne_nil _)
    · rw [natDigits_ge10 a ha, natDigits_lt10 b hb] at h
      have hlen := congrArg List.length h
      simp at hlen
      exact absurd hlen (natDigits_ne_nil _)
    · rw [natDigits_ge10 a ha, natDigits_ge10 b hb] at h
      obtain ⟨h1, h2⟩ := List.append_inj' h (by simp)
      simp at h2
      have hmod : a % 10 = b % 10 :=
        decDigit_inj _ (Nat.mod_lt _ (by omega)) _ (Nat.mod_lt _ (by omega)) h2
      have hdiv : a / 10 = b / 10 :=
        ih (a / 10) (Nat.div_lt_self (by omega) (by omega)) (b / 10) h1
      omega

theorem intToDecimal_chars (i : Int) :
    ∀ c ∈ intToDecimal i, isDigitCh c = true ∨ c = '-' := by
  unfold intToDecimal
  split
  · intro c hc
    rcases List.mem_cons.1 hc with hc | hc
    · right; exact hc
    · left; exact natDigits_all_digit _ c hc
  · intro c hc
    left
    exact natDigits_all_digit _ c hc

theorem intToDecimal_inj : ∀ i j : Int, intToDecimal i = intToDecimal j → i = j := by
  intro i j h
  unfold intToDecimal at h
  split_ifs at h with hi hj hj
  · simp at h
    have := natDigits_inj _ _ h
    omega
  · have : '-' ∈ natDigits j.toNat := h ▸ List.mem_cons_self '-' _
    have hd := natDigits_all_digit j.toNat '-' this
    simp [isDigitCh] at hd
  · have : '-' ∈ natDigits i.toNat := h.symm ▸ List.mem_cons_self '-' _
    have hd := natDigits_all_digit i.toNat '-' this
    simp [isDigitCh] at hd
  · have := natDigits_inj _ _ h
    omega

theorem takeWhile_append_stop (p : Char → Bool) (l1 : List Char) (c : Char) (l2 : List Char)
    (h1 : ∀ a ∈ l1, p a = true) (h2 : p c = false) :
    List.takeWhile p (l1 ++ c :: l2) = l1 := by
  induction l1 with
  | nil => simp [List.takeWhile_cons, h2]
  | cons a t ih =>
    have hpa : p a = true := h1 a (List.mem_cons_self a t)
    have hrest := ih (fun x hx => h1 x (List.mem_cons_of_mem a hx))
    simp [List.takeWhile_cons, hpa, hrest]

theorem intToDecimal_no_underscore (i : Int) :
    ∀ c ∈ (intToDecimal i).reverse, (!(c = '_')) = true := by
  intro c hc
  have hne : c ≠ '_' := by
    intro hc'
    subst hc'
    rcases intToDecimal_chars i '_' (List.mem_reverse.1 hc) with h | h
    · exact absurd h (by decide)
    · exact absurd h (by decide)
  simpa using hne

theorem tailIndexRev_path (a : List Char) (i : Int) :
    tailIndexRev (a ++ fileSeg ++ intToDecimal i ++ binSuffix) = (intToDecimal i).reverse := by
  unfold tailIndexRev
  have hassoc : a ++ fileSeg ++ intToDecimal i ++ binSuffix =
      (a ++ fileSeg ++ intToDecimal i) ++ binSuffix := by simp
  rw [hassoc, List.reverse_append]
  rw [show binSuffix.reverse = ['n', 'i', 'b', '.'] from rfl]
  rw [show (4 : Nat) = (['n', 'i', 'b', '.'] : List Char).length from rfl, List.drop_left]
  rw [List.reverse_append, List.reverse_append]
  rw [show fileSeg.reverse = '_' :: ['e', 'l', 'i', 'f', '/'] from rfl]
  exact takeWhile_append_stop _ _ '_' (['e', 'l', 'i', 'f', '/'] ++ a.reverse)
    (intToDecimal_no_underscore i) (by decide)

theorem filePathTotal_inj (d : List Char) (fpd : Int) (ns : Bool) (i j : Int)
    (h : filePathTotal d fpd ns i = filePathTotal d fpd ns j) : i = j := by
  apply intToDecimal_inj
  have hrev : (intToDecimal i).reverse = (intToDecimal j).reverse := by
    cases ns
    · unfold filePathTotal at h
      simp only [Bool.false_eq_true, if_false] at h
      have h2 := congrArg tailIndexRev h
      rwa [tailIndexRev_path, tailIndexRev_path] at h2
    · unfold filePathTotal at h
      simp only [if_true] at h
      have h2 := congrArg tailIndexRev h
      rwa [tailIndexRev_path, tailIndexRev_path] at h2
  have h3 := congrArg List.reverse hrev
  simpa using h3

theorem filePathFor_total (d : List Char) (fpd : Int) (ns : Bool) (i : Int)
    (h : ns = true ∨ fpd ≠ 0) :
    filePathFor d fpd ns i = some (filePathTotal d fpd ns i) := by
  cases ns
  · rcases h with h | h
    · exact absurd h (by simp)
    · simp [filePathFor, filePathTotal, goDivInt, h]
  · simp [filePathFor, filePathTotal]

theorem range_map_succ_shift (n : Nat) (start : Int) :
    (List.range (n + 1)).map (fun k : Nat => start + (k : Int)) =
      start :: (List.range n).map (fun k : Nat => (start + 1) + (k : Int)) := by
  rw [List.range_succ_eq_map, List.map_cons, List.map_map]
  congr 1
  · simp
  · have hf : ((fun k : Nat => start + (k : Int)) ∘ Nat.succ) =
        fun k : Nat => (start + 1) + (k : Int) := by
      funext k
      simp [Function.comp]
      ring
    rw [hf]

theorem producePathsAux_eq (d : List Char) (fpd : Int) (ns : Bool)
    (h : ns = true ∨ fpd ≠ 0) :
    ∀ (n : Nat) (start : Int),
      producePathsAux d fpd ns start n =
        some (((List.range n).map (fun k : Nat => start + (k : Int))).map
          (filePathTotal d fpd ns)) := by
  intro n
  induction n with
  | zero => intro start; simp [producePathsAux]
  | succ n ih =>
    intro start
    rw [producePathsAux, filePathFor_total d fpd ns start h, ih (start + 1),
      range_map_succ_shift, List.map_cons]

/-! ## Claim theorems -/

/-- C1: for every fileSize > 0 and bufferSize > 0, a successful call to
`createRandomFile` writes exactly `fileSize` bytes: the chunk loop writes
chunks of size `min(bufferSize, remainingBytes)` until the remainder reaches
zero, and the sum of the chunk sizes equals `fileSize` (each chunk being
positive and at most `bufferSize`). -/
theorem createRandomFile_writes_exactly (env : FSOracle) (path : List Char)
    (fileSize bufferSize : Int) (fuel : Nat) (chunks : List Int)
    (hfs : 0 < fileSize) (hb : 0 < bufferSize)
    (h : createRandomFile env path fileSize bufferSize fuel = some (.ok chunks)) :
    chunks.sum = fileSize ∧ chunks ≠ [] ∧ ∀ c ∈ chunks, 0 < c ∧ c ≤ bufferSize := by
  unfold createRandomFile at h
  by_cases h1 : env.mkdirFails
  · simp [h1] at h
  by_cases h2 : env.createFails
  · simp [h1, h2] at h
  simp only [h1, h2, if_false, Bool.false_eq_true] at h
  cases hw : writeChunks env path bufferSize fuel fileSize 0 with
  | none => rw [hw] at h; simp at h
  | some res =>
    rw [hw] at h
    cases res with
    | error e => simp at h
    | ok cs =>
      by_cases h3 : env.flushFails
      · simp [h3] at h
      · simp [h3] at h
        subst h
        obtain ⟨hs, hbound⟩ := writeChunks_ok_sum env path bufferSize hb fuel fileSize 0 cs hw
        refine ⟨by omega, ?_, hbound⟩
        intro hnil
        rw [hnil] at hs
        simp at hs
        omega

/-- Witness for C1: a concrete successful call, fileSize 5 and bufferSize 2,
writes chunks [2, 2, 1] summing to 5. -/
theorem createRandomFile_writes_exactly_witness :
    createRandomFile okOracle ['f'] 5 2 5 = some (.ok [2, 2, 1]) ∧
    ([2, 2, 1] : List Int).sum = 5 := by
  refine ⟨by decide, ?_⟩
  exact (createRandomFile_writes_exactly okOracle ['f'] 5 2 5 [2, 2, 1]
    (by norm_num) (by norm_num) (by decide)).1

/-- C3: the path planner is a pure function of
(root, index, filesPerSubdir, useSubdirs): with subdirectories disabled the
path is `root/file_<i>.bin`; otherwise the subdirectory number is the
truncated division `i / filesPerDir` and the path is
`root/subdir_<n>/file_<i>.bin`; for filesPerDir = 10000, indices 1..9999 get
subdirectory number 0, 10000..19999 get 1, and 20000..25000 get 2. -/
theorem filePathFor_spec :
    (∀ (d : List Char) (fpd i : Int),
        filePathFor d fpd true i = some (d ++ fileSeg ++ intToDecimal i ++ binSuffix)) ∧
    (∀ (d : List Char) (fpd i : Int), fpd ≠ 0 →
        filePathFor d fpd false i =
          some ((d ++ subdirSeg ++ intToDecimal (Int.tdiv i fpd)) ++
            fileSeg ++ intToDecimal i ++ binSuffix)) ∧
    (∀ i : Int, 1 ≤ i → i ≤ 9999 → Int.tdiv i 10000 = 0) ∧
    (∀ i : Int, 10000 ≤ i → i ≤ 19999 → Int.tdiv i 10000 = 1) ∧
    (∀ i : Int, 20000 ≤ i → i ≤ 25000 → Int.tdiv i 10000 = 2) := by
  refine ⟨fun d fpd i => rfl, fun d fpd i h => ?_,
    tdiv_10000_zero, tdiv_10000_one, tdiv_10000_two⟩
  simp [filePathFor, goDivInt, h]

/-- Witness for C3: concrete instances of each part at filesPerDir 10000. -/
theorem filePathFor_spec_witness :
    filePathFor ['r'] 10000 false 25000 =
      some ((['r'] ++ subdirSeg ++ intToDecimal (Int.tdiv 25000 10000)) ++
        fileSeg ++ intToDecimal 25000 ++ binSuffix) ∧
    Int.tdiv 9999 10000 = 0 ∧ Int.tdiv 19999 10000 = 1 ∧ Int.tdiv 25000 10000 = 2 := by
  exact ⟨filePathFor_spec.2.1 ['r'] 10000 25000 (by norm_num),
    filePathFor_spec.2.2.1 9999 (by norm_num) (by norm_num),
    filePathFor_spec.2.2.2.1 19999 (by norm_num) (by norm_num),
    filePathFor_spec.2.2.2.2 25000 (by norm_num) (by norm_num)⟩

/-- C6: for every system page size `p`, the buffer sizer returns
`clamp(max(p * 256, 1 MiB), 256 KiB, 16 MiB)`; the clamp is
`min (max candidate 262144) 16777216`.  (In the program the value is
computed once in `main` and passed to `createRandomDataFiles`, so it is
per-run, not per-file.) -/
theorem getOptimalBufferSize_spec (p : Int) :
    getOptimalBufferSize p = clampSpec minBufferSize maxBufferSize (max (p * 256) (1024 * 1024)) := by
  have h1 : (256 * 1024 : Int) ≤ max (p * 256) (1024 * 1024) :=
    le_trans (by norm_num) (le_max_right _ _)
  simp only [getOptimalBufferSize, clampSpec, minBufferSize, maxBufferSize]
  rw [max_eq_left h1]
  split_ifs with h2 h3
  · exact absurd h2 (not_lt.2 h1)
  · rw [min_eq_right (le_of_lt h3)]
  · rw [min_eq_left (le_of_not_lt h3)]

/-- C7 (amended): a per-file error on one job does not stop the worker: the
error is logged with the worker's identity (and, except for random-source
failures, the file path), the failed job is abandoned without retry (exactly
one attempt and at most one log entry per job), and the worker proceeds to
process every remaining job in its sequence (one completion event per job,
regardless of failures). -/
theorem worker_error_policy (id : Int) (envOf : List Char → FSOracle)
    (fs b : Int) (el : List Char → Int) (fuel : Nat) (jobs : List (List Char))
    (logs : List LogEntry) (events : List (Int × Int))
    (h : worker id envOf fs b el fuel jobs = some (logs, events)) :
    events = jobs.map (fun p => (fs, el p)) ∧
    logs = jobs.filterMap (fun p =>
      match createRandomFile (envOf p) p fs b fuel with
      | some (.error e) => some ⟨id, e⟩
      | _ => none) ∧
    (∀ en ∈ logs, en.workerId = id) ∧
    (∀ p ∈ jobs, ∀ e : FileErr,
        createRandomFile (envOf p) p fs b fuel = some (.error e) →
        e = .randSource ∨ errPath e = some p) := by
  obtain ⟨he, hl⟩ := worker_shape id envOf fs b el fuel jobs logs events h
  refine ⟨he, hl, ?_, ?_⟩
  · intro en hen
    rw [hl] at hen
    obtain ⟨p, hp, hf⟩ := List.mem_filterMap.1 hen
    cases hc : createRandomFile (envOf p) p fs b fuel with
    | none => rw [hc] at hf; simp at hf
    | some res =>
      cases res with
      | error e =>
        rw [hc] at hf
        simp at hf
        rw [← hf]
      | ok v => rw [hc] at hf; simp at hf
  · intro p hp e hc
    exact createRandomFile_error_cases (envOf p) p fs b fuel e hc

/-- Counterexample for C7 as stated: a job failing in the random source is
logged (the worker carries on and still emits its completion event), but the
logged error `randSource` carries no file path — its `fmt.Errorf` format,
"error generating random data: %v", has no path verb — contradicting
"the error is logged with the worker's identity and the file path" for
random-source failures. -/
theorem worker_randSource_log_has_no_path :
    worker 3 (fun _ => failRandOracle) 5 2 (fun _ => 0) 6 [['a']] =
      some ([⟨3, FileErr.randSource⟩], [(5, 0)]) ∧
    errPath FileErr.randSource = none := by decide

/-- Witness for C7 (amended): a concrete run where both jobs fail on write;
each log entry names worker 7, and a write failure's message carries its
file path. -/
theorem worker_error_policy_witness :
    ((⟨7, FileErr.writeFail ['a']⟩ : LogEntry).workerId = 7) ∧
    (FileErr.writeFail ['a'] = FileErr.randSource ∨
      errPath (FileErr.writeFail ['a']) = some ['a']) := by
  have h := worker_error_policy 7 (fun _ => failWriteOracle) 5 2 (fun _ => 0) 6 [['a'], ['b']]
      [⟨7, .writeFail ['a']⟩, ⟨7, .writeFail ['b']⟩] [(5, 0), (5, 0)] (by decide)
  exact ⟨h.2.2.1 _ (by simp), h.2.2.2 ['a'] (by simp) _ (by decide)⟩

/-- C8: whatever the outcome of `createRandomFile`, the worker emits one
completion event per job carrying the full configured fileSize (and the
elapsed time); consequently the aggregator counts every job as completed and
sums `jobs.length * fileSize` bytes, and the event stream is identical under
any failure oracle — a failed job is indistinguishable from a successful one
in the progress statistics. -/
theorem worker_reports_nominal_size (id : Int) (envOf : List Char → FSOracle)
    (fs b : Int) (el : List Char → Int) (fuel : Nat) (jobs : List (List Char))
    (logs : List LogEntry) (events : List (Int × Int))
    (h : worker id envOf fs b el fuel jobs = some (logs, events)) :
    events = jobs.map (fun p => (fs, el p)) ∧
    (∀ ev ∈ events, ev.1 = fs) ∧
    (aggregate events).completed = jobs.length ∧
    (aggregate events).totalBytes = jobs.length * fs ∧
    (∀ (envOf' : List Char → FSOracle) (logs' : List LogEntry) (events' : List (Int × Int)),
        worker id envOf' fs b el fuel jobs = some (logs', events') → events' = events) := by
  obtain ⟨he, -⟩ := worker_shape id envOf fs b el fuel jobs logs events h
  subst he
  refine ⟨rfl, ?_, ?_, ?_, ?_⟩
  · intro ev hev
    obtain ⟨p, hp, hev⟩ := List.mem_map.1 hev
    rw [← hev]
  · rw [aggregate_spec]
    simp
  · rw [aggregate_spec]
    show ((jobs.map fun p => (fs, el p)).map Prod.fst).sum = (jobs.length : Int) * fs
    rw [List.map_map]
    have hcomp : (Prod.fst ∘ fun p => (fs, el p)) = fun (_ : List Char) => fs := rfl
    rw [hcomp, sum_map_const]
  · intro envOf' logs' events' h'
    obtain ⟨he', -⟩ := worker_shape id envOf' fs b el fuel jobs logs' events' h'
    rw [he']

/-- Witness for C8: a run of two jobs that both fail in the random source
still aggregates 2 completions and 2 * 5 = 10 total bytes. -/
theorem worker_reports_nominal_size_witness :
    (aggregate [(5, 0), (5, 0)]).completed = 2 ∧
    (aggregate [(5, 0), (5, 0)]).totalBytes = 10 := by
  have h := worker_reports_nominal_size 3 (fun _ => failRandOracle) 5 2 (fun _ => 0) 6
      [['a'], ['b']] [⟨3, .randSource⟩, ⟨3, .randSource⟩] [(5, 0), (5, 0)] (by decide)
  refine ⟨?_, ?_⟩
  · have := h.2.2.1
    simpa using this
  · have := h.2.2.2.1
    simpa using this

/-- C9: the subdirectory computation `i / filesPerDir` has no zero guard,
and `main` performs no validation of filesPerDir: with any nonzero divisor
the path computation is total, but `--files-per-dir=0` with subdirectories
enabled reaches `createRandomDataFiles` (the required-flag check ignores it)
and the producer's division by zero panics (modelled as `none`). -/
theorem filesPerDir_zero_division_reachable :
    (∀ (d : List Char) (fpd : Int) (ns : Bool) (i : Int), fpd ≠ 0 →
        (filePathFor d fpd ns i).isSome) ∧
    (∀ (d : List Char) (i : Int), filePathFor d 0 false i = none) ∧
    (mainModel ['d'] 1 2 ['1', 'K', 'B'] 0 4 false = .run ['d'] 1 2 1024 0 4 false) ∧
    (producePaths ['d'] 1 2 0 false = none) := by
  refine ⟨fun d fpd ns i h => ?_, fun d i => ?_, by decide, by decide⟩
  · cases ns <;> simp [filePathFor, goDivInt, h]
  · simp [filePathFor, goDivInt]

/-- Witness for C9: at filesPerDir 10000 the path computation is defined. -/
theorem filesPerDir_zero_division_reachable_witness :
    (filePathFor ['d'] 10000 false 3).isSome := by
  exact filesPerDir_zero_division_reachable.1 ['d'] 10000 false 3 (by norm_num)

/-- C10: `--start=0` or `--end=0` is indistinguishable from omitting the
flag (the flag default is 0, so both reach the required-field check as the
same value) and makes `main` print usage and exit before any generation
(`usageExit` precedes `parseSize` and `createRandomDataFiles` in
`mainModel`), while negative index values pass the required-field check. -/
theorem zero_index_treated_as_missing :
    (∀ (d : List Char) (e : Int) (sz : List Char) (fpd w : Int) (ns : Bool),
        mainModel d 0 e sz fpd w ns = .usageExit) ∧
    (∀ (d : List Char) (s : Int) (sz : List Char) (fpd w : Int) (ns : Bool),
        mainModel d s 0 sz fpd w ns = .usageExit) ∧
    (∀ (d : List Char) (s e : Int) (sz : List Char),
        d ≠ [] → sz ≠ [] → s < 0 → e ≠ 0 → requiredMissing d s e sz = false) := by
  refine ⟨fun d e sz fpd w ns => ?_, fun d s sz fpd w ns => ?_,
    fun d s e sz hd hsz hs he => ?_⟩
  · simp [mainModel, requiredMissing]
  · simp [mainModel, requiredMissing]
  · simp [requiredMissing, hd, hsz, he]
    omega

/-- Witness for C10: `--start=-3` passes the required-field check. -/
theorem zero_index_treated_as_missing_witness :
    requiredMissing ['d'] (-3) 5 ['1', 'K', 'B'] = false := by
  exact zero_index_treated_as_missing.2.2 ['d'] (-3) 5 ['1', 'K', 'B']
    (by simp) (by simp) (by norm_num) (by norm_num)

/-- C5: for every run with startIndex ≤ endIndex (and a divisor that cannot
panic), the producer enumerates the indices startIndex..endIndex in ascending
order and produces exactly endIndex − startIndex + 1 distinct FileJobs, one
per index, covering every index in the range exactly once; the job queue is
closed after the last index (the production list is finite and ends there). -/
theorem producer_enumerates (d : List Char) (startNum endNum fpd : Int) (ns : Bool)
    (hrange : startNum ≤ endNum) (hok : ns = true ∨ fpd ≠ 0) :
    producePaths d startNum endNum fpd ns =
      some ((indexList startNum endNum).map (filePathTotal d fpd ns)) ∧
    (((indexList startNum endNum).map (filePathTotal d fpd ns)).length : Int) =
      endNum - startNum + 1 ∧
    (indexList startNum endNum).Pairwise (· < ·) ∧
    (∀ i : Int, i ∈ indexList startNum endNum ↔ startNum ≤ i ∧ i ≤ endNum) ∧
    ((indexList startNum endNum).map (filePathTotal d fpd ns)).Nodup := by
  refine ⟨?_, ?_, ?_, ?_, ?_⟩
  · rw [producePaths, producePathsAux_eq d fpd ns hok]
    rfl
  · simp [indexList]
    omega
  · unfold indexList
    refine List.Pairwise.map _ ?_ (List.pairwise_lt_range _)
    intro a b hab
    omega
  · intro i
    unfold indexList
    simp only [List.mem_map, List.mem_range]
    constructor
    · rintro ⟨k, hk, rfl⟩
      omega
    · intro hi
      exact ⟨(i - startNum).toNat, by omega, by omega⟩
  · apply List.Nodup.map
    · intro i j hij
      exact filePathTotal_inj d fpd ns i j hij
    · unfold indexList
      exact (List.nodup_range _).map (fun a b hab => by omega)

/-- Witness for C5: a concrete run over indices 1..3 with filesPerDir 2. -/
theorem producer_enumerates_witness :
    producePaths ['d'] 1 3 2 false =
      some ((indexList 1 3).map (filePathTotal ['d'] 2 false)) := by
  exact (producer_enumerates ['d'] 1 3 2 false (by norm_num) (Or.inr (by norm_num))).1

theorem find?_split {α : Type} (p : α → Bool) :
    ∀ (l : List α) (a : α), l.find? p = some a →
      ∃ l1 l2, l = l1 ++ a :: l2 ∧ ∀ x ∈ l1, p x = false := by
  intro l
  induction l with
  | nil => intro a h; simp [List.find?] at h
  | cons b t ih =>
    intro a h
    by_cases hpb : p b
    · rw [List.find?_cons_of_pos t hpb] at h
      simp at h
      subst h
      exact ⟨[], t, by simp, by simp⟩
    · rw [List.find?_cons_of_neg t hpb] at h
      obtain ⟨l1, l2, heq, hfail⟩ := ih a h
      refine ⟨b :: l1, l2, by simp [heq], ?_⟩
      intro x hx
      rcases List.mem_cons.1 hx with hx | hx
      · subst hx; simpa using hpb
      · exact hfail x hx

theorem find?_first_not_R {α : Type} (R : α → α → Prop) (p : α → Bool) (L : List α)
    (hpw : L.Pairwise (fun a b => ¬R a b)) (a : α) (hfind : L.find? p = some a)
    (b : α) (hmem : b ∈ L) (hpb : p b = true) :
    a = b ∨ ¬R a b := by
  obtain ⟨l1, l2, heq, hfail⟩ := find?_split p L a hfind
  subst heq
  rcases List.mem_append.1 hmem with hb1 | hb2
  · have := hfail b hb1
    rw [hpb] at this
    cases this
  · rcases List.mem_cons.1 hb2 with hb2 | hb2
    · left; exact hb2.symm
    · right
      exact (List.pairwise_cons.1 (List.pairwise_append.1 hpw).2.1).1 b hb2

theorem find?_perm_of_pairwise {α : Type} (R : α → α → Prop) (p : α → Bool)
    (L1 L2 : List α) (hperm : L1.Perm L2)
    (hcomp : ∀ a ∈ L1, ∀ b ∈ L1, p a = true → p b = true → R a b ∨ R b a)
    (h1 : L1.Pairwise (fun a b => ¬R a b)) (h2 : L2.Pairwise (fun a b => ¬R a b)) :
    L1.find? p = L2.find? p := by
  cases hf1 : L1.find? p with
  | none =>
    cases hf2 : L2.find? p with
    | none => rfl
    | some b =>
      have hb := List.find?_some hf2
      have hmem : b ∈ L1 := hperm.symm.subset (List.mem_of_find?_eq_some hf2)
      have := List.find?_eq_none.1 hf1 b hmem
      simp [hb] at this
  | some a =>
    have hpa := List.find?_some hf1
    have hamem1 : a ∈ L1 := List.mem_of_find?_eq_some hf1
    have hamem2 : a ∈ L2 := hperm.subset hamem1
    cases hf2 : L2.find? p with
    | none =>
      have := List.find?_eq_none.1 hf2 a hamem2
      simp [hpa] at this
    | some b =>
      have hpb := List.find?_some hf2
      have hbmem1 : b ∈ L1 := hperm.symm.subset (List.mem_of_find?_eq_some hf2)
      have hstep1 := find?_first_not_R R p L1 h1 a hf1 b hbmem1 hpb
      have hstep2 := find?_first_not_R R p L2 h2 b hf2 a hamem2 hpa
      rcases hstep1 with heq | hnR1
      · rw [heq]
      · rcases hstep2 with heq | hnR2
        · rw [heq]
        · rcases hcomp a hamem1 b hbmem1 hpa hpb with hR | hR
          · exact absurd hR hnR1
          · exact absurd hR hnR2


/-- C4: for every input string, the unit selected by parseSize's first-match
loop is the longest matching unit suffix of the (normalized) string: the
source-order matching is equivalent to checking the units in
longest-suffix-first order (`unitsLongestFirst` is a length-sorted
permutation of `units`), so no valid input is mis-parsed by matching a
shorter unit that is a suffix of a longer one. -/
theorem unit_match_longest (s : List Char) :
    units.find? (fun u => u.isSuffixOf s) = unitsLongestFirst.find? (fun u => u.isSuffixOf s) ∧
    (∀ u, units.find? (fun u => u.isSuffixOf s) = some u →
      ∀ v ∈ units, v.isSuffixOf s = true → v.length ≤ u.length) ∧
    units.Perm unitsLongestFirst ∧
    unitsLongestFirst.Pairwise (fun a b => b.length ≤ a.length) := by
  have hperm : units.Perm unitsLongestFirst := by decide
  have h1 : units.Pairwise (fun a b => ¬(a <:+ b)) := by decide
  have h2 : unitsLongestFirst.Pairwise (fun a b => ¬(a <:+ b)) := by decide
  have hcomp : ∀ a ∈ units, ∀ b ∈ units,
      (a.isSuffixOf s) = true → (b.isSuffixOf s) = true → (a <:+ b) ∨ (b <:+ a) := by
    intro a _ b _ ha hb
    exact List.suffix_or_suffix_of_suffix (List.isSuffixOf_iff_suffix.1 ha)
      (List.isSuffixOf_iff_suffix.1 hb)
  refine ⟨find?_perm_of_pairwise _ _ _ _ hperm hcomp h1 h2, ?_, hperm, by decide⟩
  intro u hu v hv hvs
  have hpu : (u.isSuffixOf s) = true := by
    have hx := List.find?_some (p := fun w : List Char => w.isSuffixOf s) hu
    simpa using hx
  have hstep := find?_first_not_R _ _ units h1 u hu v hv hvs
  rcases hstep with heq | hnR
  · rw [heq]
  · rcases hcomp u (List.mem_of_find?_eq_some hu) v hv hpu hvs with hR | hR
    · exact absurd hR hnR
    · exact hR.length_le

/-- Witness for C4: on "5GIGABYTES" the selected unit GIGABYTES is at least
as long as the also-matching suffix BYTES. -/
theorem unit_match_longest_witness :
    uBYTES.length ≤ uGIGABYTES.length := by
  exact (unit_match_longest ['5', 'G', 'I', 'G', 'A', 'B', 'Y', 'T', 'E', 'S']).2.1 uGIGABYTES
    (by decide) uBYTES (by decide) (by decide)


theorem space_cases (c : Char) (h : isGoSpace c = true) :
    c = ' ' ∨ c = '\t' ∨ c = '\n' ∨ c = '\x0b' ∨ c = '\x0c' ∨ c = '\r' := by
  simp [isGoSpace] at h
  tauto

theorem quote_cases (c : Char) (h : isQuoteChar c = true) : c = '\'' ∨ c = '"' := by
  simp [isQuoteChar] at h
  tauto

theorem digit_not_space (c : Char) (h : isDigitCh c = true) : isGoSpace c = false := by
  by_contra h'
  rcases space_cases c (by simpa using h') with rfl | rfl | rfl | rfl | rfl | rfl <;>
    exact absurd h (by decide)

theorem digit_not_quote (c : Char) (h : isDigitCh c = true) : isQuoteChar c = false := by
  by_contra h'
  rcases quote_cases c (by simpa using h') with rfl | rfl <;> exact absurd h (by decide)

theorem digit_not_upper (c : Char) (h : isDigitCh c = true) : isAsciiUpper c = false := by
  simp [isDigitCh] at h
  simp [isAsciiUpper]
  intro h1
  have := le_trans h1 h.2
  exact absurd this (by decide)

theorem digit_ne_signs (c : Char) (h : isDigitCh c = true) : c ≠ '-' ∧ c ≠ '+' := by
  constructor <;> intro h' <;> subst h' <;> exact absurd h (by decide)

theorem upLetter_not_space (c : Char) (h : isAsciiUpper (upChar c) = true) :
    isGoSpace c = false := by
  by_contra h'
  rcases space_cases c (by simpa using h') with rfl | rfl | rfl | rfl | rfl | rfl <;>
    exact absurd h (by decide)

theorem upLetter_not_quote (c : Char) (h : isAsciiUpper (upChar c) = true) :
    isQuoteChar c = false := by
  by_contra h'
  rcases quote_cases c (by simpa using h') with rfl | rfl <;> exact absurd h (by decide)

theorem upChar_digit (c : Char) (h : isDigitCh c = true) : upChar c = c := by
  simp [isDigitCh] at h
  unfold upChar
  rw [if_neg]
  intro hcond
  simp at hcond
  have := le_trans hcond.1 h.2
  exact absurd this (by decide)

theorem upChar_space (c : Char) (h : isGoSpace c = true) : upChar c = c := by
  rcases space_cases c h with rfl | rfl | rfl | rfl | rfl | rfl <;> decide

theorem dash_not_space : isGoSpace '-' = false := by decide

theorem dash_not_quote : isQuoteChar '-' = false := by decide

theorem dash_not_upper : isAsciiUpper '-' = false := by decide

theorem upChar_dash : upChar '-' = '-' := by decide

theorem units_upper : ∀ u ∈ units, ∀ c ∈ u, isAsciiUpper c = true := by decide

theorem units_ne_nil : ∀ u ∈ units, u ≠ [] := by decide

theorem find_self_units : ∀ u ∈ units,
    units.find? (fun w => w.isSuffixOf u) = some u := by decide


theorem dropWhile_append_all (p : Char → Bool) (a b : List Char)
    (ha : ∀ c ∈ a, p c = true) :
    (a ++ b).dropWhile p = b.dropWhile p := by
  induction a with
  | nil => simp
  | cons c t ih =>
    have hc : p c = true := ha c (List.mem_cons_self c t)
    simp [List.dropWhile_cons, hc, ih (fun x hx => ha x (List.mem_cons_of_mem c hx))]

theorem dropWhile_cons_false (p : Char → Bool) (c : Char) (t : List Char)
    (hc : p c = false) : (c :: t).dropWhile p = c :: t := by
  simp [List.dropWhile_cons, hc]

theorem head_mem_of_append {x y : List Char} {c : Char} {t : List Char} (hx : x ≠ [])
    (h : x ++ y = c :: t) : c ∈ x := by
  cases x with
  | nil => exact absurd rfl hx
  | cons a s =>
    simp at h
    rw [h.1]
    exact List.mem_cons_self c s

theorem reverse_ne_nil {x : List Char} (hx : x ≠ []) : x.reverse ≠ [] := by
  simpa using hx

theorem goTrimEnds_decorated (p : Char → Bool) (a m b : List Char)
    (ha : ∀ c ∈ a, p c = true) (hb : ∀ c ∈ b, p c = true)
    (hm1 : ∀ c t, m = c :: t → p c = false)
    (hm2 : ∀ c t, m.reverse = c :: t → p c = false)
    (hne : m ≠ []) :
    goTrimEnds p (a ++ (m ++ b)) = m := by
  have hstep1 : List.dropWhile p (m ++ b) = m ++ b := by
    cases hm : m with
    | nil => exact absurd hm hne
    | cons c t =>
      have hdw := dropWhile_cons_false p c (t ++ b) (hm1 c t hm)
      simpa using hdw
  have hstep2 : List.dropWhile p (m ++ b).reverse = m.reverse := by
    rw [List.reverse_append, dropWhile_append_all p b.reverse m.reverse
      (fun x hx => hb x (List.mem_reverse.1 hx))]
    cases hmr : m.reverse with
    | nil => exact absurd hmr (reverse_ne_nil hne)
    | cons c' t' =>
      exact dropWhile_cons_false p c' t' (hm2 c' t' hmr)
  unfold goTrimEnds
  rw [dropWhile_append_all p a (m ++ b) ha, hstep1, hstep2, List.reverse_reverse]

theorem trimEnds_of_all_false (p : Char → Bool) (a m b : List Char)
    (ha : ∀ c ∈ a, p c = true) (hb : ∀ c ∈ b, p c = true)
    (hall : ∀ c ∈ m, p c = false) (hne : m ≠ []) :
    goTrimEnds p (a ++ (m ++ b)) = m := by
  refine goTrimEnds_decorated p a m b ha hb ?_ ?_ hne
  · intro c t h
    exact hall c (by rw [h]; exact List.mem_cons_self c t)
  · intro c t h
    refine hall c (List.mem_reverse.1 ?_)
    rw [h]
    exact List.mem_cons_self c t

theorem map_self_of (f : Char → Char) (l : List Char) (h : ∀ c ∈ l, f c = c) :
    l.map f = l := by
  induction l with
  | nil => rfl
  | cons c t ih =>
    simp [h c (List.mem_cons_self c t), ih (fun x hx => h x (List.mem_cons_of_mem c hx))]


theorem find?_congr {α : Type} (p q : α → Bool) :
    ∀ l : List α, (∀ a ∈ l, p a = q a) → l.find? p = l.find? q := by
  intro l
  induction l with
  | nil => intro h; rfl
  | cons a t ih =>
    intro h
    have ha := h a (List.mem_cons_self a t)
    cases hpa : p a with
    | true =>
      rw [List.find?_cons_of_pos t hpa, List.find?_cons_of_pos t (ha ▸ hpa)]
    | false =>
      rw [List.find?_cons_of_neg t (by simp [hpa]), List.find?_cons_of_neg t (by simp [← ha, hpa])]
      exact ih (fun x hx => h x (List.mem_cons_of_mem a hx))

theorem suffix_of_append_unit (v u pre : List Char) (hv : v ∈ units) (hu : u ∈ units)
    (hlast : ∀ c t, pre.reverse = c :: t → isAsciiUpper c = false)
    (hsuf : v <:+ pre ++ u) : v <:+ u := by
  have hucomp : u <:+ pre ++ u := List.suffix_append pre u
  rcases List.suffix_or_suffix_of_suffix hsuf hucomp with h | h
  · exact h
  · obtain ⟨w, hw⟩ := h
    cases hwn : w with
    | nil =>
      rw [hwn] at hw
      simp at hw
      rw [← hw]
    | cons x xs =>
      obtain ⟨t0, ht0⟩ := hsuf
      rw [← hw, ← List.append_assoc] at ht0
      have hpre : t0 ++ w = pre := List.append_cancel_right ht0
      have hrev : pre.reverse = w.reverse ++ t0.reverse := by
        rw [← hpre, List.reverse_append]
      have hwrev_ne : w.reverse ≠ [] := reverse_ne_nil (by rw [hwn]; simp)
      cases hwr : w.reverse with
      | nil => exact absurd hwr hwrev_ne
      | cons c cs =>
        have hcpre : pre.reverse = c :: (cs ++ t0.reverse) := by
          rw [hrev, hwr, List.cons_append]
        have hcmem : c ∈ w := by
          have : c ∈ w.reverse := by rw [hwr]; exact List.mem_cons_self c cs
          exact List.mem_reverse.1 this
        have hcv : c ∈ v := by
          rw [← hw]
          exact List.mem_append.2 (Or.inl hcmem)
        have := units_upper v hv c hcv
        rw [hlast c (cs ++ t0.reverse) hcpre] at this
        cases this

theorem findUnit_with_prefix (u pre : List Char) (hu : u ∈ units) (hne : pre ≠ [])
    (hlast : ∀ c t, pre.reverse = c :: t → isAsciiUpper c = false) :
    units.find? (fun w => w.isSuffixOf (pre ++ u)) = some u := by
  rw [find?_congr (fun w => w.isSuffixOf (pre ++ u)) (fun w => w.isSuffixOf u) units ?_]
  · exact find_self_units u hu
  · intro v hv
    show v.isSuffixOf (pre ++ u) = v.isSuffixOf u
    cases hsuf : v.isSuffixOf u with
    | true =>
      have h : v <:+ pre ++ u :=
        (List.isSuffixOf_iff_suffix.1 hsuf).trans (List.suffix_append pre u)
      simpa [List.isSuffixOf_iff_suffix] using h
    | false =>
      cases h' : v.isSuffixOf (pre ++ u) with
      | false => rfl
      | true =>
        have h2 : v <:+ u :=
          suffix_of_append_unit v u pre hv hu hlast (List.isSuffixOf_iff_suffix.1 h')
        have h3 : v.isSuffixOf u = true := by
          simpa [List.isSuffixOf_iff_suffix] using h2
        rw [hsuf] at h3
        cases h3


theorem digitVal_decDigit : ∀ n < 10, digitVal (decDigit n) = some n := by decide

theorem parseDigitsAcc_append (a b : List Char) :
    ∀ acc : Nat, parseDigitsAcc acc (a ++ b) =
      match parseDigitsAcc acc a with
      | none => none
      | some v => parseDigitsAcc v b := by
  induction a with
  | nil => intro acc; rfl
  | cons c t ih =>
    intro acc
    simp only [List.cons_append, parseDigitsAcc]
    cases digitVal c with
    | none => rfl
    | some d => exact ih (acc * 10 + d)

theorem parseDigitsAcc_natDigits :
    ∀ n acc : Nat, parseDigitsAcc acc (natDigits n) =
      some (acc * 10 ^ (natDigits n).length + n) := by
  intro n
  induction n using Nat.strong_induction_on with
  | _ n ih =>
    intro acc
    by_cases h : n < 10
    · rw [natDigits_lt10 n h]
      simp [parseDigitsAcc, digitVal_decDigit n h]
    · rw [natDigits_ge10 n h, parseDigitsAcc_append]
      rw [ih (n / 10) (Nat.div_lt_self (by omega) (by omega)) acc]
      simp only [parseDigitsAcc, digitVal_decDigit (n % 10) (Nat.mod_lt _ (by omega))]
      rw [List.length_append]
      simp only [List.length_cons, List.length_nil]
      congr 1
      have hpow : 10 ^ ((natDigits (n / 10)).length + 1) =
          10 ^ (natDigits (n / 10)).length * 10 := by ring
      rw [hpow]
      have : acc * (10 ^ (natDigits (n / 10)).length * 10) =
          (acc * 10 ^ (natDigits (n / 10)).length) * 10 := by ring
      rw [this]
      omega

theorem natDigits_head_digit (m : Nat) :
    ∀ c t, natDigits m = c :: t → isDigitCh c = true := by
  intro c t h
  have : c ∈ natDigits m := by rw [h]; exact List.mem_cons_self c t
  exact natDigits_all_digit m c this

theorem goAtoiMag_natDigits (neg : Bool) (m : Nat)
    (hr : ¬((if neg then -(m : Int) else (m : Int)) < -(2 ^ 63) ∨
        2 ^ 63 ≤ (if neg then -(m : Int) else (m : Int)))) :
    goAtoiMag neg (natDigits m) = .ok (if neg then -(m : Int) else (m : Int)) := by
  cases hd : natDigits m with
  | nil => exact absurd hd (natDigits_ne_nil m)
  | cons c t =>
    have hp : parseDigitsAcc 0 (c :: t) = some m := by
      rw [← hd, parseDigitsAcc_natDigits m 0]
      simp
    simp only [goAtoiMag, hp]
    rw [if_neg hr]


theorem goAtoi_intToDecimal (n : Int) (h1 : -(2 ^ 63) ≤ n) (h2 : n < 2 ^ 63) :
    goAtoi (intToDecimal n) = .ok n := by
  by_cases hn : n < 0
  · have hd : intToDecimal n = '-' :: natDigits (-n).toNat := by
      unfold intToDecimal
      rw [if_pos hn]
    rw [hd]
    show (if '-' = '-' then goAtoiMag true (natDigits (-n).toNat)
      else if '-' = '+' then goAtoiMag false (natDigits (-n).toNat)
      else goAtoiMag false ('-' :: natDigits (-n).toNat)) = Except.ok n
    rw [if_pos rfl]
    have hr : ¬((if true then -((-n).toNat : Int) else ((-n).toNat : Int)) < -(2 ^ 63) ∨
        2 ^ 63 ≤ (if true then -((-n).toNat : Int) else ((-n).toNat : Int))) := by
      simp only [if_true]
      push_neg
      constructor <;> omega
    rw [goAtoiMag_natDigits true (-n).toNat hr]
    simp only [if_true]
    congr 1
    omega
  · have hd : intToDecimal n = natDigits n.toNat := by
      unfold intToDecimal
      rw [if_neg hn]
    rw [hd]
    cases hnd : natDigits n.toNat with
    | nil => exact absurd hnd (natDigits_ne_nil _)
    | cons c t =>
      have hdg := natDigits_head_digit n.toNat c t hnd
      have hsn := digit_ne_signs c hdg
      show (if c = '-' then goAtoiMag true t
        else if c = '+' then goAtoiMag false t
        else goAtoiMag false (c :: t)) = Except.ok n
      rw [if_neg hsn.1, if_neg hsn.2, ← hnd]
      have hr : ¬((if false then -((n.toNat : Nat) : Int) else ((n.toNat : Nat) : Int)) < -(2 ^ 63) ∨
          2 ^ 63 ≤ (if false then -((n.toNat : Nat) : Int) else ((n.toNat : Nat) : Int))) := by
        simp only [if_false, Bool.false_eq_true]
        push_neg
        constructor <;> omega
      rw [goAtoiMag_natDigits false n.toNat hr]
      simp only [if_false, Bool.false_eq_true]
      congr 1
      omega

theorem wrap64_id (x : Int) (h1 : -(2 ^ 63) ≤ x) (h2 : x < 2 ^ 63) : wrap64 x = x := by
  unfold wrap64
  have hmod : (x + 2 ^ 63) % 2 ^ 64 = x + 2 ^ 63 :=
    Int.emod_eq_of_lt (by omega) (by omega)
  omega

theorem goTrimSuffix_append (a u : List Char) : goTrimSuffix (a ++ u) u = a := by
  unfold goTrimSuffix
  rw [if_pos (by simp [List.isSuffixOf_iff_suffix])]
  rw [show (a ++ u).length - u.length = a.length by simp]
  exact List.take_left a u

theorem int_range_step (m k : Int) (hk : 2 ≤ k) (hlo : -(2 ^ 63) ≤ m * k)
    (hhi : m * k < 2 ^ 63) : -(2 ^ 63) ≤ m ∧ m < 2 ^ 63 := by
  have habs : |m * k| ≤ 2 ^ 63 := abs_le.2 ⟨by omega, by omega⟩
  have h2 : |m| * 2 ≤ |m| * k := by
    apply mul_le_mul_of_nonneg_left hk (abs_nonneg m)
  have h3 : |m| * k = |m * k| := by
    rw [abs_mul, abs_of_nonneg (by omega : (0 : Int) ≤ k)]
  have h4 : |m| * 2 ≤ 2 ^ 63 := by omega
  have h5 : -(2 ^ 62) ≤ m ∧ m ≤ 2 ^ 62 := abs_le.1 (by omega)
  constructor <;> omega


theorem okChain1 (n : Int) (hlo : -(2 ^ 63) ≤ n * 1024) (hhi : n * 1024 < 2 ^ 63) :
    goMul n 1024 = n * 1024 := by
  unfold goMul
  exact wrap64_id _ hlo hhi

theorem okChain2 (n : Int) (hlo : -(2 ^ 63) ≤ n * (1024 * 1024))
    (hhi : n * (1024 * 1024) < 2 ^ 63) :
    goMul (goMul n 1024) 1024 = n * (1024 * 1024) := by
  obtain ⟨ha, hb⟩ := int_range_step (n * 1024) 1024 (by norm_num)
    (by rw [mul_assoc]; exact hlo) (by rw [mul_assoc]; exact hhi)
  show wrap64 (wrap64 (n * 1024) * 1024) = n * (1024 * 1024)
  rw [wrap64_id (n * 1024) ha hb, mul_assoc]
  exact wrap64_id _ hlo hhi

theorem okChain3 (n : Int) (hlo : -(2 ^ 63) ≤ n * (1024 * 1024 * 1024))
    (hhi : n * (1024 * 1024 * 1024) < 2 ^ 63) :
    goMul (goMul (goMul n 1024) 1024) 1024 = n * (1024 * 1024 * 1024) := by
  have e3 : n * (1024 * 1024 * 1024) = n * (1024 * 1024) * 1024 := by ring
  obtain ⟨ha2, hb2⟩ := int_range_step (n * (1024 * 1024)) 1024 (by norm_num)
    (by rw [← e3]; exact hlo) (by rw [← e3]; exact hhi)
  show wrap64 (goMul (goMul n 1024) 1024 * 1024) = n * (1024 * 1024 * 1024)
  rw [okChain2 n ha2 hb2, ← e3]
  exact wrap64_id _ hlo hhi

theorem unitFactor_spec (u : List Char) (hu : u ∈ units) (n : Int)
    (hlo : -(2 ^ 63) ≤ n * specMultiplier u) (hhi : n * specMultiplier u < 2 ^ 63) :
    unitFactor u n = .ok (n * specMultiplier u) := by
  simp only [units, List.mem_cons, List.not_mem_nil, or_false] at hu
  rcases hu with rfl | rfl | rfl | rfl | rfl | rfl | rfl | rfl | rfl | rfl | rfl | rfl
  · rw [show specMultiplier uGB = 1024 * 1024 * 1024 from by decide] at hlo hhi ⊢
    unfold unitFactor
    rw [if_neg (by decide), if_neg (by decide), if_neg (by decide), if_pos (by decide)]
    rw [okChain3 n hlo hhi]
  · rw [show specMultiplier uMB = 1024 * 1024 from by decide] at hlo hhi ⊢
    unfold unitFactor
    rw [if_neg (by decide), if_neg (by decide), if_pos (by decide)]
    rw [okChain2 n hlo hhi]
  · rw [show specMultiplier uKB = 1024 from by decide] at hlo hhi ⊢
    unfold unitFactor
    rw [if_neg (by decide), if_pos (by decide)]
    rw [okChain1 n hlo hhi]
  · rw [show specMultiplier uB = 1 from by decide] at hlo hhi ⊢
    unfold unitFactor
    rw [if_pos (by decide)]
    simp
  · rw [show specMultiplier uGIGABYTE = 1024 * 1024 * 1024 from by decide] at hlo hhi ⊢
    unfold unitFactor
    rw [if_neg (by decide), if_neg (by decide), if_neg (by decide), if_pos (by decide)]
    rw [okChain3 n hlo hhi]
  · rw [show specMultiplier uMEGABYTE = 1024 * 1024 from by decide] at hlo hhi ⊢
    unfold unitFactor
    rw [if_neg (by decide), if_neg (by decide), if_pos (by decide)]
    rw [okChain2 n hlo hhi]
  · rw [show specMultiplier uKILOBYTE = 1024 from by decide] at hlo hhi ⊢
    unfold unitFactor
    rw [if_neg (by decide), if_pos (by decide)]
    rw [okChain1 n hlo hhi]
  · rw [show specMultiplier uBYTE = 1 from by decide] at hlo hhi ⊢
    unfold unitFactor
    rw [if_pos (by decide)]
    simp
  · rw [show specMultiplier uGIGABYTES = 1024 * 1024 * 1024 from by decide] at hlo hhi ⊢
    unfold unitFactor
    rw [if_neg (by decide), if_neg (by decide), if_neg (by decide), if_pos (by decide)]
    rw [okChain3 n hlo hhi]
  · rw [show specMultiplier uMEGABYTES = 1024 * 1024 from by decide] at hlo hhi ⊢
    unfold unitFactor
    rw [if_neg (by decide), if_neg (by decide), if_pos (by decide)]
    rw [okChain2 n hlo hhi]
  · rw [show specMultiplier uKILOBYTES = 1024 from by decide] at hlo hhi ⊢
    unfold unitFactor
    rw [if_neg (by decide), if_pos (by decide)]
    rw [okChain1 n hlo hhi]
  · rw [show specMultiplier uBYTES = 1 from by decide] at hlo hhi ⊢
    unfold unitFactor
    rw [if_pos (by decide)]
    simp


theorem intToDecimal_ne_nil (n : Int) : intToDecimal n ≠ [] := by
  unfold intToDecimal
  split
  · simp
  · exact natDigits_ne_nil _

theorem intToDecimal_rev_head (n : Int) :
    ∀ c t, (intToDecimal n).reverse = c :: t → isDigitCh c = true := by
  intro c t h
  have hmem : c ∈ (intToDecimal n).reverse := by
    rw [h]; exact List.mem_cons_self c t
  unfold intToDecimal at h hmem
  by_cases hn : n < 0
  · rw [if_pos hn] at h
    simp only [List.reverse_cons] at h
    have hc : c ∈ (natDigits (-n).toNat).reverse := head_mem_of_append
      (reverse_ne_nil (natDigits_ne_nil _)) h
    exact natDigits_all_digit _ c (List.mem_reverse.1 hc)
  · rw [if_neg hn] at hmem
    exact natDigits_all_digit _ c (List.mem_reverse.1 hmem)

theorem space_not_upper (c : Char) (h : isGoSpace c = true) : isAsciiUpper c = false := by
  rcases space_cases c h with rfl | rfl | rfl | rfl | rfl | rfl <;> decide

theorem space_not_quote (c : Char) (h : isGoSpace c = true) : isQuoteChar c = false := by
  rcases space_cases c h with rfl | rfl | rfl | rfl | rfl | rfl <;> decide

theorem specMultiplier_cases : ∀ u ∈ units,
    specMultiplier u = 1 ∨ specMultiplier u = 1024 ∨
    specMultiplier u = 1024 * 1024 ∨ specMultiplier u = 1024 * 1024 * 1024 := by decide

theorem range_of_mul (n : Int) (u : List Char) (hu : u ∈ units)
    (hlo : -(2 ^ 63) ≤ n * specMultiplier u) (hhi : n * specMultiplier u < 2 ^ 63) :
    -(2 ^ 63) ≤ n ∧ n < 2 ^ 63 := by
  rcases specMultiplier_cases u hu with hm | hm | hm | hm <;> rw [hm] at hlo hhi
  · constructor <;> omega
  · exact int_range_step n 1024 (by norm_num) hlo hhi
  · exact int_range_step n (1024 * 1024) (by norm_num) hlo hhi
  · exact int_range_step n (1024 * 1024 * 1024) (by norm_num) hlo hhi

theorem normalizeSize_decorated (n : Int) (u tu q1 q2 w1 w2 w3 : List Char)
    (hu : u ∈ units) (htu : goToUpper tu = u)
    (hq1 : ∀ c ∈ q1, isQuoteChar c = true) (hq2 : ∀ c ∈ q2, isQuoteChar c = true)
    (hw1 : ∀ c ∈ w1, isGoSpace c = true) (hw2 : ∀ c ∈ w2, isGoSpace c = true)
    (hw3 : ∀ c ∈ w3, isGoSpace c = true) :
    normalizeSize (q1 ++ (w1 ++ (intToDecimal n ++ (w2 ++ (tu ++ (w3 ++ q2)))))) =
      intToDecimal n ++ (w2 ++ u) := by
  have htu_ne : tu ≠ [] := by
    intro h
    rw [h] at htu
    exact units_ne_nil u hu (by simpa [goToUpper] using htu.symm)
  have htu_chars : ∀ c ∈ tu, isAsciiUpper (upChar c) = true := by
    intro c hc
    have hmem : upChar c ∈ u := by
      rw [← htu]
      exact List.mem_map_of_mem upChar hc
    exact units_upper u hu (upChar c) hmem
  have hdec := intToDecimal_chars n
  have hshape : q1 ++ (w1 ++ (intToDecimal n ++ (w2 ++ (tu ++ (w3 ++ q2))))) =
      q1 ++ ((w1 ++ (intToDecimal n ++ (w2 ++ (tu ++ w3)))) ++ q2) := by simp
  have hA : goTrimQuotes (q1 ++ ((w1 ++ (intToDecimal n ++ (w2 ++ (tu ++ w3)))) ++ q2)) =
      w1 ++ (intToDecimal n ++ (w2 ++ (tu ++ w3))) := by
    apply trimEnds_of_all_false isQuoteChar q1 _ q2 hq1 hq2
    · intro c hc
      rcases List.mem_append.1 hc with hc | hc
      · exact space_not_quote c (hw1 c hc)
      · rcases List.mem_append.1 hc with hc | hc
        · rcases hdec c hc with h | h
          · exact digit_not_quote c h
          · rw [h]; exact dash_not_quote
        · rcases List.mem_append.1 hc with hc | hc
          · exact space_not_quote c (hw2 c hc)
          · rcases List.mem_append.1 hc with hc | hc
            · exact upLetter_not_quote c (htu_chars c hc)
            · exact space_not_quote c (hw3 c hc)
    · intro hnil
      simp only [List.append_eq_nil] at hnil
      exact intToDecimal_ne_nil n hnil.2.1
  have hB : goTrimSpace (w1 ++ (intToDecimal n ++ (w2 ++ (tu ++ w3)))) =
      intToDecimal n ++ (w2 ++ tu) := by
    have hre : w1 ++ (intToDecimal n ++ (w2 ++ (tu ++ w3))) =
        w1 ++ ((intToDecimal n ++ (w2 ++ tu)) ++ w3) := by simp
    rw [hre]
    apply goTrimEnds_decorated isGoSpace w1 _ w3 hw1 hw3
    · intro c t h
      have hc : c ∈ intToDecimal n := head_mem_of_append (intToDecimal_ne_nil n) h
      rcases hdec c hc with hd | hd
      · exact digit_not_space c hd
      · rw [hd]; exact dash_not_space
    · intro c t h
      have hrev : (intToDecimal n ++ (w2 ++ tu)).reverse =
          tu.reverse ++ (w2.reverse ++ (intToDecimal n).reverse) := by
        simp [List.reverse_append]
      rw [hrev] at h
      have hc : c ∈ tu.reverse := head_mem_of_append (reverse_ne_nil htu_ne) h
      exact upLetter_not_space c (htu_chars c (List.mem_reverse.1 hc))
    · intro hnil
      simp only [List.append_eq_nil] at hnil
      exact intToDecimal_ne_nil n hnil.1
  have htu' : List.map upChar tu = u := htu
  have hC : goToUpper (intToDecimal n ++ (w2 ++ tu)) = intToDecimal n ++ (w2 ++ u) := by
    unfold goToUpper
    rw [List.map_append, List.map_append]
    rw [map_self_of upChar (intToDecimal n) ?_, map_self_of upChar w2 ?_, htu']
    · intro c hc
      exact upChar_space c (hw2 c hc)
    · intro c hc
      rcases hdec c hc with hd | hd
      · exact upChar_digit c hd
      · rw [hd]; exact upChar_dash
  unfold normalizeSize
  rw [hshape, hA, hB]
  exact hC


theorem parseSize_decorated (n : Int) (u tu q1 q2 w1 w2 w3 : List Char)
    (hu : u ∈ units) (htu : goToUpper tu = u)
    (hq1 : ∀ c ∈ q1, isQuoteChar c = true) (hq2 : ∀ c ∈ q2, isQuoteChar c = true)
    (hw1 : ∀ c ∈ w1, isGoSpace c = true) (hw2 : ∀ c ∈ w2, isGoSpace c = true)
    (hw3 : ∀ c ∈ w3, isGoSpace c = true)
    (hlo : -(2 ^ 63) ≤ n * specMultiplier u) (hhi : n * specMultiplier u < 2 ^ 63) :
    parseSize (q1 ++ (w1 ++ (intToDecimal n ++ (w2 ++ (tu ++ (w3 ++ q2)))))) =
      .ok (n * specMultiplier u) := by
  have hnorm := normalizeSize_decorated n u tu q1 q2 w1 w2 w3 hu htu hq1 hq2 hw1 hw2 hw3
  have hfind : units.find? (fun w => w.isSuffixOf (intToDecimal n ++ (w2 ++ u))) = some u := by
    rw [show intToDecimal n ++ (w2 ++ u) = (intToDecimal n ++ w2) ++ u by simp]
    apply findUnit_with_prefix u (intToDecimal n ++ w2) hu
    · intro hnil
      simp only [List.append_eq_nil] at hnil
      exact intToDecimal_ne_nil n hnil.1
    · intro c t h
      rw [List.reverse_append] at h
      cases hw2e : w2 with
      | nil =>
        rw [hw2e] at h
        simp only [List.reverse_nil, List.nil_append] at h
        exact digit_not_upper c (intToDecimal_rev_head n c t h)
      | cons c0 t0 =>
        rw [hw2e] at h
        have hc : c ∈ (c0 :: t0).reverse := head_mem_of_append (reverse_ne_nil (by simp)) h
        have hcw2 : c ∈ w2 := by
          rw [hw2e]
          exact List.mem_reverse.1 hc
        exact space_not_upper c (hw2 c hcw2)
  have hval : goTrimSpace (goTrimSuffix (intToDecimal n ++ (w2 ++ u)) u) = intToDecimal n := by
    rw [show intToDecimal n ++ (w2 ++ u) = (intToDecimal n ++ w2) ++ u by simp,
      goTrimSuffix_append]
    show goTrimEnds isGoSpace ([] ++ (intToDecimal n ++ w2)) = intToDecimal n
    apply goTrimEnds_decorated isGoSpace [] (intToDecimal n) w2 (by simp) hw2
    · intro c t h
      rcases intToDecimal_chars n c (by rw [h]; exact List.mem_cons_self c t) with hd | hd
      · exact digit_not_space c hd
      · rw [hd]; exact dash_not_space
    · intro c t h
      exact digit_not_space c (intToDecimal_rev_head n c t h)
    · exact intToDecimal_ne_nil n
  have hrange := range_of_mul n u hu hlo hhi
  have hatoi := goAtoi_intToDecimal n hrange.1 hrange.2
  unfold parseSize
  rw [hnorm]
  simp only [hfind, hval, hatoi]
  exact unitFactor_spec u hu n hlo hhi


theorem parseSize_invalidFormat (s : List Char)
    (h : ∀ u ∈ units, (u.isSuffixOf (normalizeSize s)) = false) :
    parseSize s = .error .invalidFormat := by
  unfold parseSize
  have hf : units.find? (fun u => u.isSuffixOf (normalizeSize s)) = none :=
    List.find?_eq_none.2 (by intro x hx; simp [h x hx])
  simp only [hf]

theorem parseSize_invalidNumber (s u : List Char) (e : AtoiErr)
    (hf : units.find? (fun w => w.isSuffixOf (normalizeSize s)) = some u)
    (ha : goAtoi (goTrimSpace (goTrimSuffix (normalizeSize s) u)) = .error e) :
    parseSize s = .error (.invalidNumber e) := by
  unfold parseSize
  simp only [hf, ha]

/-- C2 (amended): for every valid size string of the form <int><unit> — with
optional surrounding quotes and whitespace, optional whitespace between the
number and the unit, and any letter case — whose integer times the unit's
byte multiplier (1, 1024, 1024², 1024³) fits in int64, parseSize returns the
integer multiplied by the multiplier (the multiplication is 64-bit and wraps
silently on overflow, and integer prefixes outside the int64 range fail with
Atoi's range error); for every string whose normalized form has no
recognized unit suffix it fails with an InvalidFormat error, and whenever
the prefix before the matched unit is not an integer it fails with an
InvalidNumber error wrapping Atoi's error. -/
theorem parseSize_spec :
    (∀ (n : Int) (u tu q1 q2 w1 w2 w3 s : List Char),
        u ∈ units → goToUpper tu = u →
        (∀ c ∈ q1, isQuoteChar c = true) → (∀ c ∈ q2, isQuoteChar c = true) →
        (∀ c ∈ w1, isGoSpace c = true) → (∀ c ∈ w2, isGoSpace c = true) →
        (∀ c ∈ w3, isGoSpace c = true) →
        s = q1 ++ (w1 ++ (intToDecimal n ++ (w2 ++ (tu ++ (w3 ++ q2))))) →
        -(2 ^ 63) ≤ n * specMultiplier u → n * specMultiplier u < 2 ^ 63 →
        parseSize s = .ok (n * specMultiplier u)) ∧
    (∀ s : List Char, (∀ u ∈ units, (u.isSuffixOf (normalizeSize s)) = false) →
        parseSize s = .error .invalidFormat) ∧
    (∀ (s u : List Char) (e : AtoiErr),
        units.find? (fun w => w.isSuffixOf (normalizeSize s)) = some u →
        goAtoi (goTrimSpace (goTrimSuffix (normalizeSize s) u)) = .error e →
        parseSize s = .error (.invalidNumber e)) := by
  refine ⟨?_, parseSize_invalidFormat, parseSize_invalidNumber⟩
  intro n u tu q1 q2 w1 w2 w3 s hu htu hq1 hq2 hw1 hw2 hw3 hs hlo hhi
  rw [hs]
  exact parseSize_decorated n u tu q1 q2 w1 w2 w3 hu htu hq1 hq2 hw1 hw2 hw3 hlo hhi

/-- Witness for C2 (amended): "' 3 kb'" parses to 3 * 1024; "xyz" is an
invalid format; "1.5GB" is an invalid number. -/
theorem parseSize_spec_witness :
    parseSize (['\''] ++ ([' '] ++ (intToDecimal 3 ++ ([' '] ++ (['k', 'b'] ++
        ([] ++ ['\'']))))) ) = .ok (3 * specMultiplier uKB) ∧
    parseSize ['x', 'y', 'z'] = .error .invalidFormat ∧
    parseSize ['1', '.', '5', 'G', 'B'] = .error (.invalidNumber .invalidNum) := by
  refine ⟨?_, ?_, ?_⟩
  · exact parseSize_spec.1 3 uKB ['k', 'b'] ['\''] ['\''] [' '] [' '] [] _
      (by decide) (by decide) (by decide) (by decide) (by decide) (by decide) (by decide)
      rfl (by decide) (by decide)
  · exact parseSize_spec.2.1 ['x', 'y', 'z'] (by decide)
  · exact parseSize_spec.2.2 ['1', '.', '5', 'G', 'B'] uGB .invalidNum (by decide) (by decide)

/-- Counterexample for C2 as stated: "8589934592GB" is a valid size string
of the form <int><unit>, but parseSize returns the int64-wrapped product
-2⁶³ instead of 8589934592 * 2³⁰ = 2⁶³: the multiplications in the unit
switch wrap silently at 64 bits. -/
theorem parseSize_overflow_counterexample :
    parseSize ['8', '5', '8', '9', '9', '3', '4', '5', '9', '2', 'G', 'B'] =
      .ok (-9223372036854775808) ∧
    (8589934592 : Int) * specMultiplier uGB = 9223372036854775808 ∧
    ¬(parseSize ['8', '5', '8', '9', '9', '3', '4', '5', '9', '2', 'G', 'B'] =
      .ok ((8589934592 : Int) * specMultiplier uGB)) := by
  refine ⟨by decide, by decide, by decide⟩


end FileForge
